import Mathlib

/-!
Verification of the Shamir secret-sharing repository (package `shamir`,
file `shamir/shamir.go`) against its specification.

Bytes are modelled as `Nat` values below 256.  The GF(2^8) arithmetic lives
in the repository's `galois` package, whose source is not part of the
snapshot; it is modelled from the spec (section 4.1): `Add` is XOR,
`Multiply` is carry-less polynomial multiplication reduced modulo the AES
polynomial 0x11B, `Inverse` is the multiplicative inverse (realised as the
254th power, which is the inverse for nonzero elements and maps 0 to 0),
and `Divide a b = Multiply a (Inverse b)`.
-/

namespace ShamirSSS

/-- Fuel-driven carry-less (GF(2) polynomial) multiplication.  The fuel
bounds the recursion depth; `fuel ≥ a` is always sufficient. -/
def clmulAux : Nat → Nat → Nat → Nat
  | 0, _, _ => 0
  | fuel + 1, a, b =>
    if a = 0 then 0
    else (if a % 2 = 1 then b else 0) ^^^ 2 * clmulAux fuel (a / 2) b

/-- Modelled from the spec: carry-less multiplication of two GF(2)
polynomials encoded as natural numbers (bit `i` is the coefficient of
`X^i`). -/
def clmul (a b : Nat) : Nat := clmulAux a a b

/-- One reduction step modulo the AES polynomial `0x11B = 283`: if bit `k`
(`k ≥ 8`) of `a` is set, XOR in `283 <<< (k - 8)` to clear it. -/
def reduceBit (k a : Nat) : Nat := if a.testBit k then a ^^^ 283 <<< (k - 8) else a

/-- Modelled from the spec: reduction of a GF(2) polynomial of degree at
most 15 modulo the fixed irreducible AES polynomial `0x11B`. -/
def polyMod (a : Nat) : Nat :=
  reduceBit 8 (reduceBit 9 (reduceBit 10 (reduceBit 11 (reduceBit 12
    (reduceBit 13 (reduceBit 14 (reduceBit 15 a)))))))

/-- Modelled from the spec: `galois.Field256.Add` is bitwise XOR. -/
def gfAdd (a b : Nat) : Nat := a ^^^ b

/-- Modelled from the spec: `galois.Field256.Multiply` is carry-less
multiplication reduced modulo the AES polynomial. -/
def gfMul (a b : Nat) : Nat := polyMod (clmul a b)

/-- Iterated `gfMul`, used to define the inverse. -/
def gfPow (a : Nat) : Nat → Nat
  | 0 => 1
  | n + 1 => gfMul a (gfPow a n)

/-- Modelled from the spec: `galois.Field256.Inverse`.  For nonzero `a` the
254th power is the multiplicative inverse in GF(2^8); `0` maps to `0`.  The
power is computed by square-and-multiply (`254 = 2+4+8+16+32+64+128`). -/
def gfInverse (a : Nat) : Nat :=
  let a2 := gfMul a a
  let a4 := gfMul a2 a2
  let a8 := gfMul a4 a4
  let a16 := gfMul a8 a8
  let a32 := gfMul a16 a16
  let a64 := gfMul a32 a32
  let a128 := gfMul a64 a64
  gfMul a128 (gfMul a64 (gfMul a32 (gfMul a16 (gfMul a8 (gfMul a4 a2)))))

/-- Modelled from the spec: `galois.Field256.Divide a b = Multiply a
(Inverse b)`.  The spec declares `b = 0` a `DivideByZero` failure, while
`shamir.go` consumes `Divide` as a byte-returning function; with
`gfInverse 0 = 0` the `b = 0` case yields `0` here.  Every theorem whose
inputs can reach a zero denominator is stated over the parametric
embeddings `RecoverDiv`/`RecoverF` below instead; on all other theorems'
inputs the denominators are nonzero, where this definition agrees with the
spec. -/
def gfDivide (a b : Nat) : Nat := gfMul a (gfInverse b)

/-!
Embedding of `shamir/shamir.go`.  Go's `log.Fatal` terminates the process;
it is modelled by the `fatal` outcome of `GoResult`.  The two sources of
randomness (`crypto/rand` inside `randomPolynomial` and
`random.PermSecure` inside `pickCoordinates`) are passed in explicitly:
`randomTail j` stands for the `threshold - 1` random bytes drawn for
secret byte `j`, and `permutation` for the value of `PermSecure(int(n))`,
which is a permutation of the integers `0 .. n-1` (source
`random/random.go`, `rand.Perm` seeded from `crypto/rand`).
-/

/-- Outcome of a Go function that may call `log.Fatal`: either the returned
value or process termination with the fatal message. -/
inductive GoResult (α : Type) where
  | fatal (msg : String)
  | ok (val : α)
deriving DecidableEq

/-- Embedding of `evaluatePolynomial`: Horner evaluation in GF(2^8), with
the source's explicit shortcut returning `polynomial[0]` when `x = 0`.
The downward indexed loop `value = Add(polynomial[i], Multiply(value, x))`
is rendered as structural recursion on the coefficient list. -/
def hornerLoop (x : Nat) : List Nat → Nat
  | [] => 0
  | [c] => c
  | c :: rest => gfAdd c (gfMul (hornerLoop x rest) x)

/-- Embedding of `evaluatePolynomial` (shamir.go lines 156-170). -/
def evaluatePolynomial (x : Nat) (polynomial : List Nat) : Nat :=
  if x = 0 then polynomial.headD 0 else hornerLoop x polynomial

/-- Embedding of `interpolatePolynomial` (shamir.go lines 186-205).  It is
a faithful rendering of the source, including `var basis uint8` which
initialises the running Lagrange-basis product to `0`, and `var result
uint8` initialising the sum to `0`. -/
def interpolatePolynomial (x y : List Nat) (z : Nat) : Nat :=
  (List.range x.length).foldl
    (fun result i =>
      gfAdd
        (gfMul
          ((List.range x.length).foldl
            (fun basis j =>
              if j ≠ i then
                gfMul basis (gfDivide (gfAdd z (x.getD j 0)) (gfAdd (x.getD i 0) (x.getD j 0)))
              else basis)
            0)
          (y.getD i 0))
        result)
    0

/-- Embedding of `pickCoordinates` (shamir.go lines 145-152): the Go code
copies `random.PermSecure(int(n))` into a byte slice (`byte(x)` truncates
modulo 256). -/
def pickCoordinates (_n : Nat) (permutation : List Nat) : List Nat :=
  permutation.map (fun v => v % 256)

/-- Embedding of `initShareMatrix` (shamir.go lines 174-180). -/
def initShareMatrix (n : Nat) (secretLength : Nat) : List (List Nat) :=
  List.replicate n (List.replicate (secretLength + 1) 0)

/-- Embedding of `randomPolynomial` (shamir.go lines 133-140): `make([]byte,
order)` starts with a zero byte at index 0 and `rand.Read` fills indices
`1 .. order-1`, supplied here as `randomTail` (of length `order - 1`). -/
def randomPolynomial (_order : Nat) (randomTail : List Nat) : List Nat :=
  0 :: randomTail

/-- Embedding of `Split` (shamir.go lines 57-92).  The three `log.Fatal`
guards are in source order.  The two nested loops filling the share matrix
and the final loop appending coordinates are rendered by constructing each
participant row directly: row `i` holds `evaluatePolynomial x[i] p_j` at
position `j < len(secret)` (where `p_j` is the random polynomial for byte
`j` with its intercept overwritten by `secret[j]`), followed by the
coordinate `x[i]`. -/
def Split (secret : List Nat) (n threshold : Nat) (permutation : List Nat)
    (randomTail : Nat → List Nat) : GoResult (List (List Nat)) :=
  if threshold > n then
    .fatal "the threshold value cannot be greater than the number of shares to deal."
  else if secret.length < 1 then
    .fatal "the secret cannot be empty."
  else if threshold < 2 then
    .fatal "the threshold value must be at least 2."
  else
    .ok ((List.range n).map (fun i =>
      (List.range secret.length).map (fun j =>
        evaluatePolynomial ((pickCoordinates n permutation).getD i 0)
          ((randomPolynomial threshold (randomTail j)).set 0 (secret.getD j 0)))
      ++ [(pickCoordinates n permutation).getD i 0]))

/-- Embedding of `Recover` (shamir.go lines 98-129): after the two
`log.Fatal` guards it extracts the trailing coordinate of every share and
interpolates each secret byte at `z = 0`.  There is no duplicate-coordinate
check in the source. -/
def Recover (shares : List (List Nat)) : GoResult (List Nat) :=
  if shares.length < 2 then
    .fatal "the number of shares provided is below the minimum threshold."
  else if shares.all (fun share => share.length = (shares.headD []).length) then
    .ok ((List.range ((shares.headD []).length - 1)).map (fun j =>
      interpolatePolynomial
        (shares.map (fun share => share.getD ((shares.headD []).length - 1) 0))
        (shares.map (fun share => share.getD j 0))
        0))
  else
    .fatal "all shares must be the same length."

/-!
Definitions written from the spec's own words, used to compare the source
against the specified behaviour.
-/

/-- Modelled from the spec (section 4.2, `InterpolateAt`): identical to
`interpolatePolynomial` except that the running basis product starts from
the multiplicative identity `1`, as the spec demands. -/
def specInterpolateAt (x y : List Nat) (z : Nat) : Nat :=
  (List.range x.length).foldl
    (fun result i =>
      gfAdd
        (gfMul
          ((List.range x.length).foldl
            (fun basis j =>
              if j ≠ i then
                gfMul basis (gfDivide (gfAdd z (x.getD j 0)) (gfAdd (x.getD i 0) (x.getD j 0)))
              else basis)
            1)
          (y.getD i 0))
        result)
    0

/-- Modelled from the spec (claim about `EvaluateAt`): the GF(2^8)
polynomial value as the `Add`-sum over all degrees `d` of
`Multiply(polynomial[d], x^d)`, with `d` tracked by the accumulator
argument. -/
def powerSumFrom (x : Nat) (d : Nat) : List Nat → Nat
  | [] => 0
  | c :: rest => gfAdd (gfMul c (gfPow x d)) (powerSumFrom x (d + 1) rest)

/-- Modelled from the spec: the `Add`-sum over all degrees `d` of
`Multiply(polynomial[d], x^d)`. -/
def specEvalSum (x : Nat) (polynomial : List Nat) : Nat := powerSumFrom x 0 polynomial

/-!
The `galois` package is absent from the snapshot, so the behaviour of
`galois.Field256.Divide` on a zero denominator is not fixed by any source
under `src/`.  The Go call site in `interpolatePolynomial` consumes
`Divide` as a plain byte-returning function, so as a Go function it either
returns some byte or aborts the process.  To settle claims whose inputs
reach a zero denominator, the embeddings below are parametric in the
division function: `interpolatePolynomialDiv`/`RecoverDiv` cover every
total byte-returning behaviour, and `interpolatePolynomialF`/`RecoverF`
cover the failing behaviour the spec prescribes (`DivideByZero` at
`b = 0`), with Go's strict evaluation order propagating the failure.
-/

/-- Embedding of `interpolatePolynomial`, parametric in the division
function of the absent `galois` package; identical to
`interpolatePolynomial` otherwise (zero-initialised basis included). -/
def interpolatePolynomialDiv (dv : Nat → Nat → Nat) (x y : List Nat) (z : Nat) : Nat :=
  (List.range x.length).foldl
    (fun result i =>
      gfAdd
        (gfMul
          ((List.range x.length).foldl
            (fun basis j =>
              if j ≠ i then
                gfMul basis (dv (gfAdd z (x.getD j 0)) (gfAdd (x.getD i 0) (x.getD j 0)))
              else basis)
            0)
          (y.getD i 0))
        result)
    0

/-- Embedding of `Recover`, parametric in the division function; identical
to `Recover` otherwise. -/
def RecoverDiv (dv : Nat → Nat → Nat) (shares : List (List Nat)) : GoResult (List Nat) :=
  if shares.length < 2 then
    .fatal "the number of shares provided is below the minimum threshold."
  else if shares.all (fun share => share.length = (shares.headD []).length) then
    .ok ((List.range ((shares.headD []).length - 1)).map (fun j =>
      interpolatePolynomialDiv dv
        (shares.map (fun share => share.getD ((shares.headD []).length - 1) 0))
        (shares.map (fun share => share.getD j 0))
        0))
  else
    .fatal "all shares must be the same length."

/-- Modelled from the spec (section 4.1): `Divide(a,b) = Multiply(a,
Inverse(b))`, failing with `DivideByZero` when `b = 0`. -/
def specDivide (a b : Nat) : GoResult Nat :=
  if b = 0 then .fatal "DivideByZero" else .ok (gfDivide a b)

/-- The inner basis loop of `interpolatePolynomial` under a division
function that may fail: Go evaluates `field.Divide(...)` before the
assignment, so the first failing division aborts the whole computation. -/
def basisFoldF (dv : Nat → Nat → GoResult Nat) (x : List Nat) (z i : Nat) : GoResult Nat :=
  (List.range x.length).foldl
    (fun acc j =>
      match acc with
      | .fatal msg => .fatal msg
      | .ok basis =>
        if j ≠ i then
          match dv (gfAdd z (x.getD j 0)) (gfAdd (x.getD i 0) (x.getD j 0)) with
          | .fatal msg => .fatal msg
          | .ok q => .ok (gfMul basis q)
        else .ok basis)
    (.ok 0)

/-- Embedding of `interpolatePolynomial` under a division function that may
fail, propagating the failure. -/
def interpolatePolynomialF (dv : Nat → Nat → GoResult Nat) (x y : List Nat)
    (z : Nat) : GoResult Nat :=
  (List.range x.length).foldl
    (fun acc i =>
      match acc with
      | .fatal msg => .fatal msg
      | .ok result =>
        match basisFoldF dv x z i with
        | .fatal msg => .fatal msg
        | .ok basis => .ok (gfAdd (gfMul basis (y.getD i 0)) result))
    (.ok 0)

/-- Sequencing of per-byte reconstruction under possible failure. -/
def goMapM (f : Nat → GoResult Nat) : List Nat → GoResult (List Nat)
  | [] => .ok []
  | j :: rest =>
    match f j with
    | .fatal msg => .fatal msg
    | .ok v =>
      match goMapM f rest with
      | .fatal msg => .fatal msg
      | .ok vs => .ok (v :: vs)

/-- Embedding of `Recover` under a division function that may fail;
identical to `Recover` otherwise. -/
def RecoverF (dv : Nat → Nat → GoResult Nat) (shares : List (List Nat)) :
    GoResult (List Nat) :=
  if shares.length < 2 then
    .fatal "the number of shares provided is below the minimum threshold."
  else if shares.all (fun share => share.length = (shares.headD []).length) then
    goMapM (fun j =>
      interpolatePolynomialF dv
        (shares.map (fun share => share.getD ((shares.headD []).length - 1) 0))
        (shares.map (fun share => share.getD j 0))
        0)
      (List.range ((shares.headD []).length - 1))
  else
    .fatal "all shares must be the same length."

/-! Helper lemmas shared by the claim theorems. -/

theorem gfMul_zero_left (b : Nat) : gfMul 0 b = 0 := by
  have h : clmul 0 b = 0 := rfl
  unfold gfMul
  rw [h]
  rfl

theorem gfAdd_zero_left (b : Nat) : gfAdd 0 b = b := Nat.zero_xor b

/-- A left fold whose step function fixes `0` stays at `0`. -/
theorem foldl_fixed_zero {α : Type} (g : Nat → α → Nat) (h : ∀ a, g 0 a = 0) :
    ∀ l : List α, l.foldl g 0 = 0 := by
  intro l
  induction l with
  | nil => rfl
  | cons a l ih => simpa [List.foldl_cons, h a] using ih

/-- The defective basis accumulation: because `basis` starts at the additive
identity `0`, the inner product in `interpolatePolynomial` is identically
`0`. -/
theorem interpolate_basis_eq_zero (x : List Nat) (z : Nat) (i : Nat) :
    (List.range x.length).foldl
      (fun basis j =>
        if j ≠ i then
          gfMul basis (gfDivide (gfAdd z (x.getD j 0)) (gfAdd (x.getD i 0) (x.getD j 0)))
        else basis)
      0 = 0 := by
  apply foldl_fixed_zero
  intro j
  by_cases hj : j ≠ i <;> simp [hj, gfMul_zero_left]

/-- Consequence of the zero-initialised basis: `interpolatePolynomial`
returns `0` on every input. -/
theorem interpolatePolynomial_eq_zero (x y : List Nat) (z : Nat) :
    interpolatePolynomial x y z = 0 := by
  unfold interpolatePolynomial
  apply foldl_fixed_zero
  intro i
  rw [interpolate_basis_eq_zero x z i, gfMul_zero_left, gfAdd_zero_left]

/-- The zero-initialised basis product collapses for every division
function alike. -/
theorem interpolate_basis_div_eq_zero (dv : Nat → Nat → Nat) (x : List Nat)
    (z i : Nat) :
    (List.range x.length).foldl
      (fun basis j =>
        if j ≠ i then
          gfMul basis (dv (gfAdd z (x.getD j 0)) (gfAdd (x.getD i 0) (x.getD j 0)))
        else basis)
      0 = 0 := by
  apply foldl_fixed_zero
  intro j
  by_cases hj : j ≠ i <;> simp [hj, gfMul_zero_left]

/-- `interpolatePolynomialDiv` returns `0` whatever the division function
returns: the basis accumulator starts at `0` and multiplication keeps it
`0`. -/
theorem interpolatePolynomialDiv_eq_zero (dv : Nat → Nat → Nat) (x y : List Nat)
    (z : Nat) : interpolatePolynomialDiv dv x y z = 0 := by
  unfold interpolatePolynomialDiv
  apply foldl_fixed_zero
  intro i
  rw [interpolate_basis_div_eq_zero dv x z i, gfMul_zero_left, gfAdd_zero_left]

/-- Instantiating the parametric embedding with the spec-modelled total
division recovers the direct embedding. -/
theorem interpolatePolynomialDiv_gfDivide (x y : List Nat) (z : Nat) :
    interpolatePolynomialDiv gfDivide x y z = interpolatePolynomial x y z := rfl

/-- Instantiating the parametric `Recover` with the spec-modelled total
division recovers the direct embedding. -/
theorem RecoverDiv_gfDivide (shares : List (List Nat)) :
    RecoverDiv gfDivide shares = Recover shares := rfl

/-! Claim theorems. -/

set_option maxRecDepth 8000 in
/-- C1: the round trip fails.  With secret `[0x01]`, `n = 2`, `threshold =
2`, permutation `[0, 1]` drawn by `PermSecure` and random coefficient `7`,
`Split` yields the shares `[1, 0]` and `[6, 1]`, and `Recover` on all
`threshold` of them returns `[0]`, not the original secret `[1]`. -/
theorem split_recover_round_trip_fails :
    Split [1] 2 2 [0, 1] (fun _ => [7]) = .ok [[1, 0], [6, 1]] ∧
    Recover [[1, 0], [6, 1]] = .ok [0] ∧ ([0] : List Nat) ≠ [1] :=
  ⟨rfl, rfl, by decide⟩

set_option maxRecDepth 8000 in
/-- C2: the Lagrange basis accumulation starts from `0`, not from the
multiplicative identity `1`.  At coordinates `[1, 2]` with values `[5, 5]`
(the constant polynomial `5`), the source's `interpolatePolynomial` returns
`0` at `z = 0`, while the spec's `InterpolateAt` (basis starting at `1`)
returns the correct value `5`. -/
theorem interpolate_basis_starts_at_zero :
    interpolatePolynomial [1, 2] [5, 5] 0 = 0 ∧
    specInterpolateAt [1, 2] [5, 5] 0 = 5 ∧ (0 : Nat) ≠ 5 :=
  ⟨rfl, rfl, by decide⟩

/-- C3: the coordinates drawn by `pickCoordinates` are pairwise distinct
but NOT all nonzero: `PermSecure(n)` permutes `0 .. n-1`, so the
coordinate `0` always occurs.  Concretely, with `n = 2` and the
permutation `[1, 0]`, the returned coordinates are `[1, 0]`, which contain
`0`. -/
theorem pickCoordinates_contains_zero :
    pickCoordinates 2 [1, 0] = [1, 0] ∧
    (0 : Nat) ∈ pickCoordinates 2 [1, 0] ∧
    (pickCoordinates 2 [1, 0]).Nodup := by
  refine ⟨rfl, ?_, ?_⟩ <;> decide

/-- C4: invalid input does not produce error-kind results: the source calls
`log.Fatal`, terminating the host process (modelled by the `fatal`
outcome), for `threshold < 2`, for an empty secret, and for fewer than two
shares in `Recover`. -/
theorem validation_terminates_process :
    Split [1] 2 1 [0, 1] (fun _ => [0]) =
      .fatal "the threshold value must be at least 2." ∧
    Split [] 2 2 [0, 1] (fun _ => [0]) =
      .fatal "the secret cannot be empty." ∧
    Recover [[1, 2]] =
      .fatal "the number of shares provided is below the minimum threshold." :=
  ⟨rfl, rfl, rfl⟩

/-- C5: `Recover` performs no duplicate-coordinate check.  The two shares
`[1, 1]` and `[2, 1]` carry the same trailing coordinate `1`, and the
`galois` package's `Divide` is reached with the zero denominator
`Add(1, 1) = 0`.  Whatever that absent code does there — return any byte
(first conjunct, over every total division function), or fail with
`DivideByZero` as the spec prescribes (second conjunct) — `Recover` never
fails with `DuplicateCoordinate`: it either silently returns the byte
sequence `[0]` or aborts with `DivideByZero`. -/
theorem recover_lacks_duplicate_coordinate_check :
    (∀ dv : Nat → Nat → Nat, RecoverDiv dv [[1, 1], [2, 1]] = .ok [0]) ∧
    RecoverF specDivide [[1, 1], [2, 1]] = .fatal "DivideByZero" := by
  constructor
  · intro dv
    unfold RecoverDiv
    rw [if_neg (by decide), if_pos (by decide)]
    have h : List.range ((([[1, 1], [2, 1]] : List (List Nat)).headD []).length - 1) =
        [0] := rfl
    rw [h, List.map_cons, List.map_nil, interpolatePolynomialDiv_eq_zero]
  · rfl

/-- C6: for every list of at least 2 equal-length shares (length ≥ 2) with
pairwise distinct trailing coordinates, `Recover` succeeds and returns
`shareLength - 1` bytes that are all `0`, regardless of the share values:
the Lagrange basis accumulator starts at `0` and multiplication keeps it
`0`. -/
theorem recover_returns_all_zeros (shares : List (List Nat)) (L : Nat)
    (hcount : 2 ≤ shares.length) (hlen : ∀ s ∈ shares, s.length = L)
    (hL : 2 ≤ L)
    (hdistinct : (shares.map (fun share => share.getD (L - 1) 0)).Nodup) :
    Recover shares = .ok (List.replicate (L - 1) 0) := by
  have hhead : (shares.headD []).length = L := by
    cases shares with
    | nil => simp at hcount
    | cons s rest => exact hlen s (by simp)
  have hcond : (shares.all (fun share => share.length = (shares.headD []).length)) = true := by
    rw [List.all_eq_true]
    intro s hs
    simp only [decide_eq_true_eq]
    rw [hlen s hs, hhead]
  unfold Recover
  rw [if_neg (by omega), if_pos hcond, hhead]
  congr 1
  rw [List.eq_replicate_iff]
  constructor
  · simp
  · intro b hb
    rw [List.mem_map] at hb
    obtain ⟨j, _, hj⟩ := hb
    rw [← hj]
    exact interpolatePolynomial_eq_zero _ _ _

/-- Witness for C6: two concrete shares of length 3 with distinct trailing
coordinates recover to `[0, 0]`. -/
theorem recover_returns_all_zeros_witness :
    Recover [[3, 7, 1], [4, 9, 2]] = .ok [0, 0] :=
  recover_returns_all_zeros [[3, 7, 1], [4, 9, 2]] 3
    (by decide) (by decide) (by decide) (by decide)

/-- C8: evaluating any non-empty polynomial at `x = 0` returns exactly its
intercept `polynomial[0]`: the source short-circuits this case. -/
theorem evaluatePolynomial_at_zero_is_intercept (c : Nat) (cs : List Nat) :
    evaluatePolynomial 0 (c :: cs) = c := rfl

/-- When every entry of the permutation is below 256, the byte truncation
in `pickCoordinates` is the identity. -/
theorem pickCoordinates_eq_of_lt (n : Nat) (permutation : List Nat)
    (h : ∀ v ∈ permutation, v < 256) : pickCoordinates n permutation = permutation := by
  unfold pickCoordinates
  calc permutation.map (fun v => v % 256)
      = permutation.map id := List.map_congr_left (fun v hv => Nat.mod_eq_of_lt (h v hv))
    _ = permutation := List.map_id permutation

/-- Reading every position of a list through `getD` reproduces the list. -/
theorem map_getD_range (l : List Nat) :
    (List.range l.length).map (fun j => l.getD j 0) = l := by
  apply List.ext_getElem (by simp)
  intro i h1 h2
  simp only [List.getElem_map, List.getElem_range]
  exact l.getD_eq_getElem 0 h2

/-- `getD` on a map over `List.range` evaluates the function. -/
theorem getD_map_range {α : Type} (f : Nat → α) (d : α) (n i : Nat) (h : i < n) :
    ((List.range n).map f).getD i d = f i := by
  have h2 : i < ((List.range n).map f).length := by
    simp
    omega
  rw [List.getD_eq_getElem _ d h2, List.getElem_map, List.getElem_range]

/-- C7: a returned share exposes the secret verbatim.  Under the
`PermSecure(n)` contract (the permutation argument permutes `0 .. n-1`)
and any valid `Split` arguments, the picked coordinates are a permutation
of `0 .. n-1` — all below `n`, hence not all nonzero — and the
participant `i` assigned coordinate `0` receives the share
`secret ++ [0]`: every evaluated byte equals the polynomial intercept,
which is the secret byte itself. -/
theorem split_share_exposes_secret (secret : List Nat) (n threshold : Nat)
    (permutation : List Nat) (randomTail : Nat → List Nat)
    (hn : n ≤ 255) (ht : 2 ≤ threshold) (htn : threshold ≤ n)
    (hsec : 1 ≤ secret.length) (hperm : permutation.Perm (List.range n)) :
    (pickCoordinates n permutation).Perm (List.range n) ∧
    (∀ c ∈ pickCoordinates n permutation, c < n) ∧
    ∃ i < n, (pickCoordinates n permutation).getD i 0 = 0 ∧
      ∃ S, Split secret n threshold permutation randomTail = .ok S ∧
        S.getD i [] = secret ++ [0] := by
  have hmem : ∀ v ∈ permutation, v < n := by
    intro v hv
    exact List.mem_range.1 (hperm.subset hv)
  have hpc : pickCoordinates n permutation = permutation :=
    pickCoordinates_eq_of_lt n permutation (fun v hv => by
      have := hmem v hv
      omega)
  have h0 : 0 ∈ permutation := hperm.mem_iff.2 (List.mem_range.2 (by omega))
  obtain ⟨i, hilt, hi⟩ := List.getElem_of_mem h0
  have hplen : permutation.length = n := by
    rw [hperm.length_eq, List.length_range]
  have hci : (pickCoordinates n permutation).getD i 0 = 0 := by
    rw [hpc, permutation.getD_eq_getElem 0 hilt, hi]
  refine ⟨by rw [hpc]; exact hperm, by rw [hpc]; exact hmem, i, by omega, hci, ?_⟩
  unfold Split
  rw [if_neg (by omega), if_neg (by omega), if_neg (by omega)]
  refine ⟨_, rfl, ?_⟩
  rw [getD_map_range _ _ _ _ (show i < n by omega), hci]
  have heval : ∀ j, evaluatePolynomial 0
      ((randomPolynomial threshold (randomTail j)).set 0 (secret.getD j 0)) =
      secret.getD j 0 := fun j => rfl
  simp only [heval]
  rw [map_getD_range]

/-- Witness for C7 at secret `[9, 8]`, `n = 2`, `threshold = 2`,
permutation `[1, 0]`. -/
theorem split_share_exposes_secret_witness :
    (2 ≤ 255 ∧ 2 ≤ 2 ∧ 2 ≤ 2 ∧ 1 ≤ ([9, 8] : List Nat).length ∧
      ([1, 0] : List Nat).Perm (List.range 2)) ∧
    ((pickCoordinates 2 [1, 0]).Perm (List.range 2) ∧
    (∀ c ∈ pickCoordinates 2 [1, 0], c < 2) ∧
    ∃ i < 2, (pickCoordinates 2 [1, 0]).getD i 0 = 0 ∧
      ∃ S, Split [9, 8] 2 2 [1, 0] (fun _ => [3]) = .ok S ∧
        S.getD i [] = [9, 8] ++ [0]) :=
  ⟨⟨by decide, by decide, by decide, by decide, by decide⟩,
    split_share_exposes_secret [9, 8] 2 2 [1, 0] (fun _ => [3])
      (by decide) (by decide) (by decide) (by decide) (by decide)⟩

/-- C10: for every valid `Split` call the returned share matrix has exactly
`n` rows; row `i` has length `len(secret) + 1`, holds at position `j <
len(secret)` the polynomial evaluation for secret byte `j` at participant
`i`'s coordinate (the polynomial being the random coefficients with the
intercept overwritten by the secret byte), and holds the coordinate itself
at position `len(secret)`. -/
theorem split_share_matrix_shape (secret : List Nat) (n threshold : Nat)
    (permutation : List Nat) (randomTail : Nat → List Nat)
    (ht : 2 ≤ threshold) (htn : threshold ≤ n) (hsec : 1 ≤ secret.length) :
    ∃ S, Split secret n threshold permutation randomTail = .ok S ∧
      S.length = n ∧
      ∀ i < n,
        (S.getD i []).length = secret.length + 1 ∧
        (∀ j < secret.length,
          (S.getD i []).getD j 0 =
            evaluatePolynomial ((pickCoordinates n permutation).getD i 0)
              (secret.getD j 0 :: randomTail j)) ∧
        (S.getD i []).getD secret.length 0 =
          (pickCoordinates n permutation).getD i 0 := by
  unfold Split
  rw [if_neg (by omega), if_neg (by omega), if_neg (by omega)]
  refine ⟨_, rfl, by simp, ?_⟩
  intro i hi
  rw [getD_map_range _ _ _ _ hi]
  have hmaplen : ((List.range secret.length).map (fun j =>
      evaluatePolynomial ((pickCoordinates n permutation).getD i 0)
        ((randomPolynomial threshold (randomTail j)).set 0 (secret.getD j 0)))).length =
      secret.length := by
    simp
  refine ⟨by simp, ?_, ?_⟩
  · intro j hj
    rw [List.getD_append _ _ _ _ (by omega), getD_map_range _ _ _ _ hj]
    rfl
  · rw [List.getD_append_right _ _ _ _ (by omega)]
    rw [hmaplen]
    simp

/-- Witness for C10 at secret `[5]`, `n = 2`, `threshold = 2`. -/
theorem split_share_matrix_shape_witness :
    (2 ≤ 2 ∧ 2 ≤ 2 ∧ 1 ≤ ([5] : List Nat).length) ∧
    (∃ S, Split [5] 2 2 [0, 1] (fun _ => [9]) = .ok S ∧
      S.length = 2 ∧
      ∀ i < 2,
        (S.getD i []).length = ([5] : List Nat).length + 1 ∧
        (∀ j < ([5] : List Nat).length,
          (S.getD i []).getD j 0 =
            evaluatePolynomial ((pickCoordinates 2 [0, 1]).getD i 0)
              (([5] : List Nat).getD j 0 :: (fun _ => ([9] : List Nat)) j)) ∧
        (S.getD i []).getD ([5] : List Nat).length 0 =
          (pickCoordinates 2 [0, 1]).getD i 0) :=
  ⟨⟨by decide, by decide, by decide⟩,
    split_share_matrix_shape [5] 2 2 [0, 1] (fun _ => [9])
      (by decide) (by decide) (by decide)⟩

/-!
GF(2^8) ring lemmas, needed to relate Horner evaluation to the power-sum
form of the polynomial value.  The development characterises `polyMod` as
reduction modulo the carry-less multiples of 283 and transfers the ring
laws of `clmul` (proved by strong induction on the binary representation)
to `gfMul`.
-/

/-- The fuel argument of `clmulAux` is irrelevant once it dominates the
first factor. -/
theorem clmulAux_congr : ∀ f1 f2 a b, a ≤ f1 → a ≤ f2 →
    clmulAux f1 a b = clmulAux f2 a b := by
  intro f1
  induction f1 with
  | zero =>
    intro f2 a b h1 h2
    have ha : a = 0 := by omega
    subst ha
    cases f2 with
    | zero => rfl
    | succ f2 => simp [clmulAux]
  | succ f1 ih =>
    intro f2 a b h1 h2
    by_cases ha : a = 0
    · subst ha
      cases f2 with
      | zero => rfl
      | succ f2 => simp [clmulAux]
    · have ha1 : 1 ≤ a := by omega
      cases f2 with
      | zero => omega
      | succ f2 =>
        simp only [clmulAux, if_neg ha]
        rw [ih f2 (a / 2) b (by omega) (by omega)]

/-- The defining recursion of `clmul`, free of fuel. -/
theorem clmul_unfold (a b : Nat) :
    clmul a b = if a = 0 then 0
      else (if a % 2 = 1 then b else 0) ^^^ 2 * clmul (a / 2) b := by
  by_cases ha : a = 0
  · subst ha
    rfl
  · obtain ⟨m, rfl⟩ : ∃ m, a = m + 1 := ⟨a - 1, by omega⟩
    rw [if_neg ha]
    show clmulAux (m + 1) (m + 1) b = _
    simp only [clmulAux, if_neg ha]
    rw [clmulAux_congr m ((m + 1) / 2) ((m + 1) / 2) b (by omega) (by omega)]
    rfl

theorem clmul_zero_left (b : Nat) : clmul 0 b = 0 := rfl

theorem clmul_zero_right (a : Nat) : clmul a 0 = 0 := by
  induction a using Nat.strong_induction_on with
  | _ a ih =>
    rw [clmul_unfold]
    by_cases ha : a = 0
    · simp [ha]
    · rw [if_neg ha, ih (a / 2) (by omega)]
      simp

theorem clmul_one_left (b : Nat) : clmul 1 b = b := by
  rw [clmul_unfold]
  norm_num
  rw [clmul_zero_left]
  simp

/-- Doubling distributes over XOR (a one-bit left shift). -/
theorem two_mul_xor (x y : Nat) : 2 * (x ^^^ y) = 2 * x ^^^ 2 * y := by
  apply Nat.eq_of_testBit_eq
  intro i
  cases i with
  | zero =>
    simp only [Nat.testBit_zero]
    simp [Nat.mul_mod_right]
  | succ i =>
    simp only [Nat.testBit_add_one]
    rw [Nat.mul_div_cancel_left _ (by norm_num : 0 < 2)]
    rw [Nat.xor_div_two]
    rw [Nat.mul_div_cancel_left _ (by norm_num : 0 < 2),
      Nat.mul_div_cancel_left _ (by norm_num : 0 < 2)]

/-- XOR on the lowest bit. -/
theorem xor_mod_two (a b : Nat) : (a ^^^ b) % 2 = a % 2 ^^^ b % 2 := by
  have h := @Nat.xor_mod_two_eq_one a b
  rcases Nat.mod_two_eq_zero_or_one a with ha | ha <;>
    rcases Nat.mod_two_eq_zero_or_one b with hb | hb <;>
      simp [ha, hb] at h ⊢ <;> omega

/-- An even number XOR 1 is its successor. -/
theorem two_mul_xor_one (k : Nat) : 2 * k ^^^ 1 = 2 * k + 1 := by
  apply Nat.eq_of_testBit_eq
  intro i
  cases i with
  | zero =>
    simp only [Nat.testBit_zero]
    rw [xor_mod_two]
    simp [Nat.mul_mod_right]
    omega
  | succ i =>
    simp only [Nat.testBit_add_one]
    rw [Nat.xor_div_two]
    have h1 : (2 * k) / 2 = k := Nat.mul_div_cancel_left _ (by norm_num)
    have h2 : (2 * k + 1) / 2 = k := by omega
    rw [h1, h2]
    simp

/-- Splitting an `if` keyed on the XOR of two bits. -/
theorem ite_bit_xor (c p q : Nat) (hp : p = 0 ∨ p = 1) (hq : q = 0 ∨ q = 1) :
    (if p ^^^ q = 1 then c else 0) =
      (if p = 1 then c else 0) ^^^ (if q = 1 then c else 0) := by
  rcases hp with h | h <;> rcases hq with h2 | h2 <;> subst h <;> subst h2 <;> simp

/-- Swapping the odd increments between two doubled numbers under XOR. -/
theorem odd_xor_swap (A B : Nat) : (2 * B + 1) ^^^ 2 * A = (2 * A + 1) ^^^ 2 * B := by
  rw [← two_mul_xor_one B, ← two_mul_xor_one A]
  ac_rfl

/-- `clmul` distributes over XOR in its first argument. -/
theorem clmul_xor_left (c : Nat) : ∀ a b, clmul (a ^^^ b) c = clmul a c ^^^ clmul b c := by
  intro a
  induction a using Nat.strong_induction_on with
  | _ a ih =>
    intro b
    by_cases ha : a = 0
    · subst ha
      rw [clmul_zero_left, Nat.zero_xor, Nat.zero_xor]
    · by_cases hb : b = 0
      · subst hb
        rw [clmul_zero_left, Nat.xor_zero, Nat.xor_zero]
      · by_cases hab : a ^^^ b = 0
        · have hba : b = a := by
            have h2 : a ^^^ (a ^^^ b) = a ^^^ 0 := by rw [hab]
            rwa [← Nat.xor_assoc, Nat.xor_self, Nat.zero_xor, Nat.xor_zero] at h2
          subst hba
          rw [hab, clmul_zero_left, Nat.xor_self]
        · rw [clmul_unfold (a ^^^ b) c, if_neg hab, Nat.xor_div_two,
            ih (a / 2) (by omega) (b / 2), two_mul_xor,
            clmul_unfold a c, if_neg ha, clmul_unfold b c, if_neg hb,
            xor_mod_two, ite_bit_xor c _ _ (Nat.mod_two_eq_zero_or_one a)
              (Nat.mod_two_eq_zero_or_one b)]
          ac_rfl

/-- `clmul` by a doubled first argument doubles the product. -/
theorem clmul_two_mul_left (x c : Nat) : clmul (2 * x) c = 2 * clmul x c := by
  by_cases hx : x = 0
  · subst hx
    rw [clmul_zero_left]
  · rw [clmul_unfold (2 * x) c, if_neg (by omega)]
    have h1 : 2 * x % 2 = 0 := Nat.mul_mod_right 2 x
    have h2 : 2 * x / 2 = x := Nat.mul_div_cancel_left _ (by norm_num)
    rw [h1, h2]
    norm_num

/-- The recursion of `clmul` on its second argument. -/
theorem clmul_unfold_right : ∀ a b, clmul a b = if b = 0 then 0
    else (if b % 2 = 1 then a else 0) ^^^ 2 * clmul a (b / 2) := by
  intro a
  induction a using Nat.strong_induction_on with
  | _ a ih =>
    intro b
    by_cases hb : b = 0
    · rw [if_pos hb, hb, clmul_zero_right]
    · rw [if_neg hb]
      by_cases ha : a = 0
      · subst ha
        rw [clmul_zero_left, clmul_zero_left]
        simp
      · rw [clmul_unfold a b, if_neg ha, ih (a / 2) (by omega) b,
          clmul_unfold a (b / 2), if_neg ha, if_neg hb, two_mul_xor]
        have key : (if a % 2 = 1 then b else 0) ^^^ 2 * (if b % 2 = 1 then a / 2 else 0) =
            (if b % 2 = 1 then a else 0) ^^^ 2 * (if a % 2 = 1 then b / 2 else 0) := by
          rcases Nat.mod_two_eq_zero_or_one a with h1 | h1 <;>
            rcases Nat.mod_two_eq_zero_or_one b with h2 | h2 <;>
              simp only [h1, h2] <;> norm_num
          · omega
          · omega
          · conv_lhs => rw [show b = 2 * (b / 2) + 1 by omega]
            conv_rhs => rw [show a = 2 * (a / 2) + 1 by omega]
            exact odd_xor_swap (a / 2) (b / 2)
        calc (if a % 2 = 1 then b else 0) ^^^
              (2 * (if b % 2 = 1 then a / 2 else 0) ^^^ 2 * (2 * clmul (a / 2) (b / 2)))
            = ((if a % 2 = 1 then b else 0) ^^^ 2 * (if b % 2 = 1 then a / 2 else 0)) ^^^
              2 * (2 * clmul (a / 2) (b / 2)) := by rw [Nat.xor_assoc]
          _ = ((if b % 2 = 1 then a else 0) ^^^ 2 * (if a % 2 = 1 then b / 2 else 0)) ^^^
              2 * (2 * clmul (a / 2) (b / 2)) := by rw [key]
          _ = (if b % 2 = 1 then a else 0) ^^^
              (2 * (if a % 2 = 1 then b / 2 else 0) ^^^ 2 * (2 * clmul (a / 2) (b / 2))) := by
              rw [Nat.xor_assoc]
          _ = (if b % 2 = 1 then a else 0) ^^^
              2 * ((if a % 2 = 1 then b / 2 else 0) ^^^ 2 * clmul (a / 2) (b / 2)) := by
              rw [two_mul_xor]

/-- `clmul` is commutative. -/
theorem clmul_comm : ∀ a b, clmul a b = clmul b a := by
  intro a
  induction a using Nat.strong_induction_on with
  | _ a ih =>
    intro b
    by_cases ha : a = 0
    · subst ha
      rw [clmul_zero_left, clmul_zero_right]
    · rw [clmul_unfold a b, if_neg ha, clmul_unfold_right b a, if_neg ha,
        ih (a / 2) (by omega) b]

/-- `clmul` is associative. -/
theorem clmul_assoc : ∀ a b c, clmul (clmul a b) c = clmul a (clmul b c) := by
  intro a
  induction a using Nat.strong_induction_on with
  | _ a ih =>
    intro b c
    by_cases ha : a = 0
    · subst ha
      rw [clmul_zero_left, clmul_zero_left, clmul_zero_left]
    · rw [clmul_unfold a b, if_neg ha, clmul_xor_left, clmul_two_mul_left,
        ih (a / 2) (by omega) b c, clmul_unfold a (clmul b c), if_neg ha]
      rcases Nat.mod_two_eq_zero_or_one a with h1 | h1 <;> simp only [h1] <;> norm_num
      rw [clmul_zero_left]
      simp

/-- Degree bound: the carry-less product of numbers below `2^k` and `2^l`
stays below `2^(k+l)`. -/
theorem clmul_lt : ∀ a, ∀ k l b, a < 2 ^ k → b < 2 ^ l → clmul a b < 2 ^ (k + l) := by
  intro a
  induction a using Nat.strong_induction_on with
  | _ a ih =>
    intro k l b hak hbl
    by_cases ha : a = 0
    · subst ha
      rw [clmul_zero_left]
      exact Nat.pos_pow_of_pos _ (by norm_num)
    · have hk : 1 ≤ k := by
        rcases Nat.eq_zero_or_pos k with h | h
        · subst h
          simp at hak
          omega
        · omega
      rw [clmul_unfold a b, if_neg ha]
      have hdiv : a / 2 < 2 ^ (k - 1) := by
        have h2 : 2 ^ k = 2 * 2 ^ (k - 1) := by
          conv_lhs => rw [show k = k - 1 + 1 by omega]
          rw [Nat.pow_succ, Nat.mul_comm]
        omega
      have hrec : clmul (a / 2) b < 2 ^ (k - 1 + l) := ih (a / 2) (by omega) (k - 1) l b hdiv hbl
      have h2 : 2 * clmul (a / 2) b < 2 ^ (k + l) := by
        have h3 : 2 ^ (k + l) = 2 * 2 ^ (k - 1 + l) := by
          conv_lhs => rw [show k + l = k - 1 + l + 1 by omega]
          rw [Nat.pow_succ, Nat.mul_comm]
        omega
      have hbit : (if a % 2 = 1 then b else 0) < 2 ^ (k + l) := by
        have hble : 2 ^ l ≤ 2 ^ (k + l) := Nat.pow_le_pow_right (by norm_num) (by omega)
        split <;> omega
      exact Nat.xor_lt_two_pow hbit h2

/-- A number in the binade `[2^s, 2^(s+1))` has bit `s` set. -/
theorem testBit_of_range {x s : Nat} (h1 : 2 ^ s ≤ x) (h2 : x < 2 ^ (s + 1)) :
    x.testBit s = true := by
  rw [Nat.testBit_to_div_mod]
  have hpos : 0 < 2 ^ s := Nat.pos_pow_of_pos _ (by norm_num)
  have hlt : x / 2 ^ s < 2 := by
    rw [Nat.div_lt_iff_lt_mul hpos]
    rw [Nat.pow_succ] at h2
    omega
  have hge : 1 ≤ x / 2 ^ s := (Nat.one_le_div_iff hpos).2 h1
  have : x / 2 ^ s = 1 := by omega
  rw [this]
  rfl

/-- A number below `2^(s+1)` whose bit `s` is clear lies below `2^s`. -/
theorem lt_of_testBit_false {x s : Nat} (h1 : x < 2 ^ (s + 1)) (h2 : x.testBit s = false) :
    x < 2 ^ s := by
  rw [Nat.testBit_to_div_mod] at h2
  have hpos : 0 < 2 ^ s := Nat.pos_pow_of_pos _ (by norm_num)
  have hlt : x / 2 ^ s < 2 := by
    rw [Nat.div_lt_iff_lt_mul hpos]
    rw [Nat.pow_succ] at h1
    omega
  have hm : x / 2 ^ s % 2 = 0 := by
    rcases Nat.mod_two_eq_zero_or_one (x / 2 ^ s) with hm | hm
    · exact hm
    · rw [hm] at h2
      simp at h2
  have hz : x / 2 ^ s = 0 := by
    rw [Nat.mod_eq_of_lt hlt] at hm
    exact hm
  by_contra hcon
  push_neg at hcon
  have := (Nat.one_le_div_iff hpos).2 hcon
  omega

/-- XOR with a smaller number preserves the binade `[2^s, 2^(s+1))`. -/
theorem xor_in_range {x y s : Nat} (hx1 : 2 ^ s ≤ x) (hx2 : x < 2 ^ (s + 1))
    (hy : y < 2 ^ s) : 2 ^ s ≤ x ^^^ y ∧ x ^^^ y < 2 ^ (s + 1) := by
  have hy2 : y < 2 ^ (s + 1) := lt_of_lt_of_le hy (Nat.pow_le_pow_right (by norm_num) (by omega))
  have hupper : x ^^^ y < 2 ^ (s + 1) := Nat.xor_lt_two_pow hx2 hy2
  have hbit : (x ^^^ y).testBit s = true := by
    rw [Nat.testBit_xor, testBit_of_range hx1 hx2, Nat.testBit_lt_two_pow hy]
    rfl
  exact ⟨Nat.testBit_implies_ge hbit, hupper⟩

/-- A nonzero carry-less multiple of 283 occupies some binade at or above
`2^8`; in particular it is at least 256. -/
theorem clmul_283_binade : ∀ q, q ≠ 0 →
    ∃ t, 8 ≤ t ∧ 2 ^ t ≤ clmul q 283 ∧ clmul q 283 < 2 ^ (t + 1) := by
  intro q
  induction q using Nat.strong_induction_on with
  | _ q ih =>
    intro hq
    by_cases hq1 : q = 1
    · subst hq1
      rw [clmul_one_left]
      exact ⟨8, by norm_num, by norm_num, by norm_num⟩
    · have hq2 : 2 ≤ q := by omega
      obtain ⟨t, ht8, htl, htu⟩ := ih (q / 2) (by omega) (by omega)
      rw [clmul_unfold q 283, if_neg hq]
      have hxl : 2 ^ (t + 1) ≤ 2 * clmul (q / 2) 283 := by
        rw [Nat.pow_succ]
        omega
      have hxu : 2 * clmul (q / 2) 283 < 2 ^ (t + 1 + 1) := by
        rw [Nat.pow_succ]
        omega
      have hbitlt : (if q % 2 = 1 then 283 else 0) < 2 ^ (t + 1) := by
        have h9 : (2 ^ 9 : Nat) ≤ 2 ^ (t + 1) := Nat.pow_le_pow_right (by norm_num) (by omega)
        have h283 : (283 : Nat) < 2 ^ 9 := by norm_num
        split <;> omega
      have hswap : (if q % 2 = 1 then 283 else 0) ^^^ 2 * clmul (q / 2) 283 =
          2 * clmul (q / 2) 283 ^^^ (if q % 2 = 1 then 283 else 0) := Nat.xor_comm _ _
      rw [hswap]
      obtain ⟨hl, hu⟩ := xor_in_range hxl hxu hbitlt
      exact ⟨t + 1, by omega, hl, hu⟩

/-- Every nonzero carry-less multiple of 283 is at least 256. -/
theorem clmul_283_ge {q : Nat} (hq : q ≠ 0) : 256 ≤ clmul q 283 := by
  obtain ⟨t, ht8, htl, _⟩ := clmul_283_binade q hq
  have : (2 ^ 8 : Nat) ≤ 2 ^ t := Nat.pow_le_pow_right (by norm_num) ht8
  omega

/-- `x` is a carry-less multiple of the AES polynomial 283. -/
def Mdvd (x : Nat) : Prop := ∃ q, x = clmul q 283

theorem Mdvd_zero : Mdvd 0 := ⟨0, rfl⟩

theorem Mdvd_xor {x y : Nat} (hx : Mdvd x) (hy : Mdvd y) : Mdvd (x ^^^ y) := by
  obtain ⟨q1, rfl⟩ := hx
  obtain ⟨q2, rfl⟩ := hy
  exact ⟨q1 ^^^ q2, (clmul_xor_left 283 q1 q2).symm⟩

theorem Mdvd_clmul_left {x : Nat} (c : Nat) (hx : Mdvd x) : Mdvd (clmul c x) := by
  obtain ⟨q, rfl⟩ := hx
  refine ⟨clmul c q, ?_⟩
  rw [clmul_assoc]

theorem Mdvd_clmul_right {x : Nat} (c : Nat) (hx : Mdvd x) : Mdvd (clmul x c) := by
  rw [clmul_comm]
  exact Mdvd_clmul_left c hx

/-- A carry-less multiple of 283 below 256 is zero. -/
theorem Mdvd_small {x : Nat} (hx : Mdvd x) (hlt : x < 256) : x = 0 := by
  obtain ⟨q, rfl⟩ := hx
  by_cases hq : q = 0
  · subst hq
    rfl
  · have := clmul_283_ge hq
    omega

/-- Two bytes whose XOR is a carry-less multiple of 283 are equal. -/
theorem eq_of_Mdvd_xor {x y : Nat} (hx : x < 256) (hy : y < 256)
    (h : Mdvd (x ^^^ y)) : x = y := by
  have hz : x ^^^ y = 0 :=
    Mdvd_small h (Nat.xor_lt_two_pow (x := x) (y := y) (n := 8) (by omega) (by omega))
  have h2 : x ^^^ (x ^^^ y) = x := by rw [hz, Nat.xor_zero]
  rw [← Nat.xor_assoc, Nat.xor_self, Nat.zero_xor] at h2
  exact h2.symm

/-- `clmul` by a power of two is an ordinary shift. -/
theorem clmul_pow_two_left (b : Nat) : ∀ s, clmul (2 ^ s) b = 2 ^ s * b := by
  intro s
  induction s with
  | zero =>
    rw [Nat.pow_zero, clmul_one_left, Nat.one_mul]
  | succ s ih =>
    have h : (2 : Nat) ^ (s + 1) = 2 * 2 ^ s := by
      rw [Nat.pow_succ, Nat.mul_comm]
    rw [h, clmul_two_mul_left, ih, Nat.mul_assoc]

/-- The shifted AES polynomial is the carry-less multiple by `2^s`. -/
theorem shiftLeft_283 (s : Nat) : 283 <<< s = clmul (2 ^ s) 283 := by
  rw [Nat.shiftLeft_eq, clmul_pow_two_left, Nat.mul_comm]

/-- One reduction step changes the value by a carry-less multiple of 283. -/
theorem reduceBit_congr (k a : Nat) : ∃ q, reduceBit k a = a ^^^ clmul q 283 := by
  unfold reduceBit
  by_cases h : a.testBit k
  · rw [if_pos h]
    exact ⟨2 ^ (k - 8), by rw [shiftLeft_283]⟩
  · rw [if_neg h]
    exact ⟨0, by rw [clmul_zero_left, Nat.xor_zero]⟩

/-- Composition of congruence steps. -/
theorem congr_comp {x y z : Nat} (h1 : ∃ q, y = x ^^^ clmul q 283)
    (h2 : ∃ q, z = y ^^^ clmul q 283) : ∃ q, z = x ^^^ clmul q 283 := by
  obtain ⟨q1, hq1⟩ := h1
  obtain ⟨q2, hq2⟩ := h2
  refine ⟨q1 ^^^ q2, ?_⟩
  rw [hq2, hq1, Nat.xor_assoc, ← clmul_xor_left]

/-- `polyMod` only subtracts carry-less multiples of 283. -/
theorem polyMod_congr (a : Nat) : ∃ q, polyMod a = a ^^^ clmul q 283 := by
  unfold polyMod
  exact congr_comp (congr_comp (congr_comp (congr_comp (congr_comp (congr_comp
    (congr_comp (reduceBit_congr 15 a) (reduceBit_congr 14 _)) (reduceBit_congr 13 _))
    (reduceBit_congr 12 _)) (reduceBit_congr 11 _)) (reduceBit_congr 10 _))
    (reduceBit_congr 9 _)) (reduceBit_congr 8 _)

/-- The congruence relation of the reduction: equality up to a carry-less
multiple of 283. -/
def GfEq (x y : Nat) : Prop := Mdvd (x ^^^ y)

theorem xor_telescope (x y z : Nat) : (x ^^^ y) ^^^ (y ^^^ z) = x ^^^ z := by
  have h : (x ^^^ y) ^^^ (y ^^^ z) = x ^^^ ((y ^^^ y) ^^^ z) := by ac_rfl
  rw [h, Nat.xor_self, Nat.zero_xor]

theorem GfEq_of_eq {x y : Nat} (h : x = y) : GfEq x y := by
  unfold GfEq
  rw [h, Nat.xor_self]
  exact Mdvd_zero

theorem GfEq_symm {x y : Nat} (h : GfEq x y) : GfEq y x := by
  unfold GfEq at h ⊢
  rwa [Nat.xor_comm]

theorem GfEq_trans {x y z : Nat} (h1 : GfEq x y) (h2 : GfEq y z) : GfEq x z := by
  unfold GfEq at h1 h2 ⊢
  have := Mdvd_xor h1 h2
  rwa [xor_telescope] at this

theorem GfEq_polyMod (x : Nat) : GfEq (polyMod x) x := by
  unfold GfEq
  obtain ⟨q, hq⟩ := polyMod_congr x
  refine ⟨q, ?_⟩
  rw [hq]
  have h : (x ^^^ clmul q 283) ^^^ x = (x ^^^ x) ^^^ clmul q 283 := by ac_rfl
  rw [h, Nat.xor_self, Nat.zero_xor]

theorem GfEq_clmul_left {x y : Nat} (c : Nat) (h : GfEq x y) :
    GfEq (clmul c x) (clmul c y) := by
  unfold GfEq at h ⊢
  have he : clmul c x ^^^ clmul c y = clmul c (x ^^^ y) := by
    rw [clmul_comm c (x ^^^ y), clmul_xor_left, clmul_comm x c, clmul_comm y c]
  rw [he]
  exact Mdvd_clmul_left c h

theorem GfEq_clmul_right {x y : Nat} (c : Nat) (h : GfEq x y) :
    GfEq (clmul x c) (clmul y c) := by
  rw [clmul_comm x c, clmul_comm y c]
  exact GfEq_clmul_left c h

theorem GfEq_xor {x1 y1 x2 y2 : Nat} (h1 : GfEq x1 y1) (h2 : GfEq x2 y2) :
    GfEq (x1 ^^^ x2) (y1 ^^^ y2) := by
  unfold GfEq at h1 h2 ⊢
  have he : (x1 ^^^ x2) ^^^ (y1 ^^^ y2) = (x1 ^^^ y1) ^^^ (x2 ^^^ y2) := by ac_rfl
  rw [he]
  exact Mdvd_xor h1 h2

theorem GfEq_to_eq {x y : Nat} (hx : x < 256) (hy : y < 256) (h : GfEq x y) :
    x = y := eq_of_Mdvd_xor hx hy h

/-- One reduction step brings a value below `2^(k+1)` below `2^k`. -/
theorem reduceBit_lt {k a : Nat} (h8 : 8 ≤ k) (h : a < 2 ^ (k + 1)) :
    reduceBit k a < 2 ^ k := by
  unfold reduceBit
  by_cases htb : a.testBit k
  · rw [if_pos htb]
    have hm1 : 2 ^ k ≤ 283 <<< (k - 8) := by
      rw [Nat.shiftLeft_eq]
      calc 2 ^ k = 2 ^ 8 * 2 ^ (k - 8) := by
            rw [← Nat.pow_add]
            congr 1
            omega
        _ ≤ 283 * 2 ^ (k - 8) := Nat.mul_le_mul_right _ (by norm_num)
    have hm2 : 283 <<< (k - 8) < 2 ^ (k + 1) := by
      rw [Nat.shiftLeft_eq]
      have hp : 0 < 2 ^ (k - 8) := Nat.pos_pow_of_pos _ (by norm_num)
      calc 283 * 2 ^ (k - 8) < 2 ^ 9 * 2 ^ (k - 8) :=
            (Nat.mul_lt_mul_right hp).2 (by norm_num)
        _ = 2 ^ (k + 1) := by
            rw [← Nat.pow_add]
            congr 1
            omega
    have hbm : (283 <<< (k - 8)).testBit k = true := by
      have := testBit_of_range hm1 hm2
      exact this
    have hxu : a ^^^ 283 <<< (k - 8) < 2 ^ (k + 1) := Nat.xor_lt_two_pow h hm2
    have hxb : (a ^^^ 283 <<< (k - 8)).testBit k = false := by
      rw [Nat.testBit_xor, htb, hbm]
      rfl
    exact lt_of_testBit_false hxu hxb
  · rw [if_neg htb]
    exact lt_of_testBit_false h (Bool.not_eq_true _ ▸ (by simpa using htb))

/-- Full reduction of a 16-bit value yields a byte. -/
theorem polyMod_lt {a : Nat} (h : a < 2 ^ 16) : polyMod a < 256 := by
  unfold polyMod
  have h15 := reduceBit_lt (k := 15) (by norm_num) h
  have h14 := reduceBit_lt (k := 14) (by norm_num) h15
  have h13 := reduceBit_lt (k := 13) (by norm_num) h14
  have h12 := reduceBit_lt (k := 12) (by norm_num) h13
  have h11 := reduceBit_lt (k := 11) (by norm_num) h12
  have h10 := reduceBit_lt (k := 10) (by norm_num) h11
  have h9 := reduceBit_lt (k := 9) (by norm_num) h10
  have h8 := reduceBit_lt (k := 8) (by norm_num) h9
  exact h8

/-- Reduction does not change a value that is already a byte. -/
theorem reduceBit_noop {k a : Nat} (h8 : 8 ≤ k) (h : a < 256) : reduceBit k a = a := by
  unfold reduceBit
  have hk : (256 : Nat) ≤ 2 ^ k := by
    calc (256 : Nat) = 2 ^ 8 := by norm_num
      _ ≤ 2 ^ k := Nat.pow_le_pow_right (by norm_num) h8
  rw [Nat.testBit_lt_two_pow (lt_of_lt_of_le h hk)]
  rfl

theorem polyMod_noop {a : Nat} (h : a < 256) : polyMod a = a := by
  unfold polyMod
  rw [reduceBit_noop (by norm_num) h, reduceBit_noop (by norm_num) h,
    reduceBit_noop (by norm_num) h, reduceBit_noop (by norm_num) h,
    reduceBit_noop (by norm_num) h, reduceBit_noop (by norm_num) h,
    reduceBit_noop (by norm_num) h, reduceBit_noop (by norm_num) h]

/-- Byte closure of `gfMul`. -/
theorem gfMul_lt {a b : Nat} (ha : a < 256) (hb : b < 256) : gfMul a b < 256 := by
  unfold gfMul
  apply polyMod_lt
  have h := clmul_lt a 8 8 b (by omega) (by omega)
  simpa using h

theorem gfMul_comm (a b : Nat) : gfMul a b = gfMul b a := by
  unfold gfMul
  rw [clmul_comm]

theorem gfMul_zero_right (a : Nat) : gfMul a 0 = 0 := by
  unfold gfMul
  rw [clmul_zero_right]
  rfl

theorem gfMul_one_right {a : Nat} (h : a < 256) : gfMul a 1 = a := by
  unfold gfMul
  rw [clmul_comm, clmul_one_left]
  exact polyMod_noop h

/-- `gfMul` is congruent to the raw carry-less product. -/
theorem GfEq_gfMul_clmul (a b : Nat) : GfEq (gfMul a b) (clmul a b) :=
  GfEq_polyMod (clmul a b)

/-- `gfMul` is associative on bytes. -/
theorem gfMul_assoc {a b c : Nat} (ha : a < 256) (hb : b < 256) (hc : c < 256) :
    gfMul (gfMul a b) c = gfMul a (gfMul b c) := by
  apply GfEq_to_eq (gfMul_lt (gfMul_lt ha hb) hc) (gfMul_lt ha (gfMul_lt hb hc))
  have h1 : GfEq (gfMul (gfMul a b) c) (clmul (clmul a b) c) :=
    GfEq_trans (GfEq_gfMul_clmul _ _) (GfEq_clmul_right c (GfEq_gfMul_clmul a b))
  have h2 : GfEq (gfMul a (gfMul b c)) (clmul a (clmul b c)) :=
    GfEq_trans (GfEq_gfMul_clmul _ _) (GfEq_clmul_left a (GfEq_gfMul_clmul b c))
  exact GfEq_trans h1 (GfEq_trans (GfEq_of_eq (clmul_assoc a b c)) (GfEq_symm h2))

/-- `gfMul` distributes over `gfAdd` on bytes (second argument). -/
theorem gfMul_xor_right {a b c : Nat} (ha : a < 256) (hb : b < 256) (hc : c < 256) :
    gfMul a (b ^^^ c) = gfMul a b ^^^ gfMul a c := by
  have hbc : b ^^^ c < 256 := Nat.xor_lt_two_pow (n := 8) (by omega) (by omega)
  apply GfEq_to_eq (gfMul_lt ha hbc)
    (Nat.xor_lt_two_pow (n := 8) (gfMul_lt ha hb) (gfMul_lt ha hc))
  have h1 : GfEq (gfMul a (b ^^^ c)) (clmul a (b ^^^ c)) := GfEq_gfMul_clmul _ _
  have hdist : clmul a (b ^^^ c) = clmul a b ^^^ clmul a c := by
    rw [clmul_comm a (b ^^^ c), clmul_xor_left, clmul_comm b a, clmul_comm c a]
  have h2 : GfEq (gfMul a b ^^^ gfMul a c) (clmul a b ^^^ clmul a c) :=
    GfEq_xor (GfEq_gfMul_clmul a b) (GfEq_gfMul_clmul a c)
  exact GfEq_trans h1 (GfEq_trans (GfEq_of_eq hdist) (GfEq_symm h2))

/-- `gfMul` distributes over `gfAdd` on bytes (first argument). -/
theorem gfMul_xor_left {a b c : Nat} (ha : a < 256) (hb : b < 256) (hc : c < 256) :
    gfMul (a ^^^ b) c = gfMul a c ^^^ gfMul b c := by
  rw [gfMul_comm (a ^^^ b) c, gfMul_comm a c, gfMul_comm b c]
  exact gfMul_xor_right hc ha hb

/-- Byte closure of `gfPow`. -/
theorem gfPow_lt {x : Nat} (hx : x < 256) : ∀ d, gfPow x d < 256 := by
  intro d
  induction d with
  | zero => norm_num [gfPow]
  | succ d ih => exact gfMul_lt hx ih

/-- Byte closure of `powerSumFrom`. -/
theorem powerSumFrom_lt {x : Nat} (hx : x < 256) :
    ∀ l d, (∀ c ∈ l, c < 256) → powerSumFrom x d l < 256 := by
  intro l
  induction l with
  | nil =>
    intro d _
    norm_num [powerSumFrom]
  | cons c rest ih =>
    intro d hl
    have hc : c < 256 := hl c (by simp)
    have hrest : ∀ u ∈ rest, u < 256 := fun u hu => hl u (by simp [hu])
    unfold powerSumFrom gfAdd
    exact Nat.xor_lt_two_pow (n := 8) (gfMul_lt hc (gfPow_lt hx d)) (ih (d + 1) hrest)

/-- Byte closure of `hornerLoop`. -/
theorem hornerLoop_lt {x : Nat} (hx : x < 256) :
    ∀ l, (∀ c ∈ l, c < 256) → hornerLoop x l < 256 := by
  intro l
  induction l with
  | nil =>
    intro _
    norm_num [hornerLoop]
  | cons c rest ih =>
    intro hl
    have hc : c < 256 := hl c (by simp)
    have hrest : ∀ u ∈ rest, u < 256 := fun u hu => hl u (by simp [hu])
    cases rest with
    | nil => simpa [hornerLoop] using hc
    | cons d rest2 =>
      unfold hornerLoop gfAdd
      exact Nat.xor_lt_two_pow (n := 8) hc (gfMul_lt (ih hrest) hx)

/-- Shifting the starting degree multiplies the power sum by `x`. -/
theorem powerSumFrom_succ {x : Nat} (hx : x < 256) :
    ∀ l d, (∀ c ∈ l, c < 256) →
      powerSumFrom x (d + 1) l = gfMul (powerSumFrom x d l) x := by
  intro l
  induction l with
  | nil =>
    intro d _
    unfold powerSumFrom
    rw [gfMul_comm, gfMul_zero_right]
  | cons c rest ih =>
    intro d hl
    have hc : c < 256 := hl c (by simp)
    have hrest : ∀ u ∈ rest, u < 256 := fun u hu => hl u (by simp [hu])
    unfold powerSumFrom gfAdd
    rw [ih (d + 1) hrest]
    have hterm : gfMul c (gfPow x (d + 1)) = gfMul (gfMul c (gfPow x d)) x := by
      show gfMul c (gfMul x (gfPow x d)) = gfMul (gfMul c (gfPow x d)) x
      rw [gfMul_assoc hc (gfPow_lt hx d) hx, gfMul_comm x (gfPow x d)]
    rw [hterm,
      ← gfMul_xor_left (gfMul_lt hc (gfPow_lt hx d)) (powerSumFrom_lt hx rest (d + 1) hrest) hx]

/-- Horner evaluation equals the power-sum form of the polynomial value. -/
theorem hornerLoop_eq_powerSum {x : Nat} (hx : x < 256) :
    ∀ l, l ≠ [] → (∀ c ∈ l, c < 256) → hornerLoop x l = powerSumFrom x 0 l := by
  intro l
  induction l with
  | nil =>
    intro h _
    exact absurd rfl h
  | cons c rest ih =>
    intro _ hl
    have hc : c < 256 := hl c (by simp)
    have hrest : ∀ u ∈ rest, u < 256 := fun u hu => hl u (by simp [hu])
    cases rest with
    | nil =>
      show c = powerSumFrom x 0 [c]
      have h : powerSumFrom x 0 [c] =
          gfAdd (gfMul c (gfPow x 0)) (powerSumFrom x (0 + 1) []) := rfl
      rw [h, show gfPow x 0 = 1 from rfl, gfMul_one_right hc,
        show powerSumFrom x (0 + 1) ([] : List Nat) = 0 from rfl]
      exact (Nat.xor_zero c).symm
    | cons d rest2 =>
      show gfAdd c (gfMul (hornerLoop x (d :: rest2)) x) = _
      rw [ih (by simp) hrest]
      rw [← powerSumFrom_succ hx (d :: rest2) 0 hrest]
      have h : powerSumFrom x 0 (c :: d :: rest2) =
          gfAdd (gfMul c (gfPow x 0)) (powerSumFrom x (0 + 1) (d :: rest2)) := rfl
      rw [h, show gfPow x 0 = 1 from rfl, gfMul_one_right hc]

/-- At `x = 0` the Horner loop returns the first coefficient. -/
theorem hornerLoop_at_zero : ∀ l : List Nat, l ≠ [] → hornerLoop 0 l = l.headD 0 := by
  intro l
  induction l with
  | nil =>
    intro h
    exact absurd rfl h
  | cons c rest ih =>
    intro _
    cases rest with
    | nil => rfl
    | cons d rest2 =>
      show gfAdd c (gfMul (hornerLoop 0 (d :: rest2)) 0) = c
      rw [gfMul_zero_right]
      exact Nat.xor_zero c

/-- C9: for every point and every non-empty byte polynomial, the source's
`evaluatePolynomial` agrees with Horner accumulation from the
highest-degree coefficient downward, and therefore with the GF(2^8)
polynomial value, the `Add`-sum over all degrees `d` of
`Multiply(polynomial[d], x^d)`. -/
theorem evaluatePolynomial_is_horner_power_sum (x : Nat) (p : List Nat)
    (hx : x < 256) (hp : ∀ c ∈ p, c < 256) (hne : p ≠ []) :
    evaluatePolynomial x p = hornerLoop x p ∧
    evaluatePolynomial x p = specEvalSum x p := by
  have hh : evaluatePolynomial x p = hornerLoop x p := by
    unfold evaluatePolynomial
    by_cases hx0 : x = 0
    · rw [if_pos hx0, hx0, hornerLoop_at_zero p hne]
    · rw [if_neg hx0]
  refine ⟨hh, ?_⟩
  rw [hh]
  exact hornerLoop_eq_powerSum hx p hne hp

/-- Witness for C9 at `x = 3`, polynomial `[1, 2]`. -/
theorem evaluatePolynomial_is_horner_power_sum_witness :
    (3 < 256 ∧ (∀ c ∈ ([1, 2] : List Nat), c < 256) ∧ ([1, 2] : List Nat) ≠ []) ∧
    (evaluatePolynomial 3 [1, 2] = hornerLoop 3 [1, 2] ∧
      evaluatePolynomial 3 [1, 2] = specEvalSum 3 [1, 2]) :=
  ⟨⟨by decide, by decide, by decide⟩,
    evaluatePolynomial_is_horner_power_sum 3 [1, 2] (by decide) (by decide) (by decide)⟩

end ShamirSSS
